import Mathlib

/-!
Shallow embedding of `src/spikes/tasks/task_runner.py` (the output-parsing and
grid-rendering pipeline of the batch driver) together with proofs of the
specification claims about it.

Python strings are embedded as `String` / `List Char`; the regex
`name\((\d+),(\d+),(\w+)\)` used by `parse_cells` is embedded as an explicit
character-level scanner (see `matchArgs` and `scanLineF`); `\d` and `\w` are
modelled over the ASCII classes `[0-9]` and `[A-Za-z0-9_]`.  Terminal output is
embedded as the list of printed lines.
-/

namespace TaskRunner

/-- A cell tuple `(x, y, label)` as produced by `parse_cells`. -/
abbrev Cell := Nat × Nat × String

/-- The character class `\d` of the pattern (ASCII decimal digits). -/
def isDigitChar (c : Char) : Bool := '0' ≤ c && c ≤ '9'

/-- The character class `\w` of the pattern: letters, digits, underscore. -/
def isWordChar (c : Char) : Bool := c.isAlphanum || c = '_'

/-- `int(s)` on a digit string: base-10 value, most significant digit first. -/
def digitsToNat (ds : List Char) : Nat := ds.foldl (fun n c => 10 * n + (c.toNat - 48)) 0

/-- Consume one expected literal character, as the regex does for `\(`, `,`, `\)`. -/
def expectChar (c : Char) : List Char → Option (List Char)
  | [] => none
  | x :: xs => if x = c then some xs else none

/-- Consume a nonempty maximal run of characters satisfying `p`, as the regex does
for `\d+` / `\w+`.  In the pattern each run is followed by a literal that the run's
class can never match (`,` after `\d+`, `\)` after `\w+`), so the backtracking
regex engine accepts exactly the maximal-munch run: any shorter nonempty run ends
right before another character of the same class, which is not the literal. -/
def takeRun (p : Char → Bool) (cs : List Char) : Option (List Char × List Char) :=
  let run := cs.takeWhile p
  if run.isEmpty then none else some (run, cs.dropWhile p)

/-- One attempt of the argument part `\((\d+),(\d+),(\w+)\)` of the pattern at the
head of `cs`; on success returns the parsed tuple (coordinates through `int`,
label verbatim) and the characters following the match. -/
def matchArgs (cs : List Char) : Option (Cell × List Char) :=
  (expectChar '(' cs).bind fun r0 =>
  (takeRun isDigitChar r0).bind fun p1 =>
  (expectChar ',' p1.2).bind fun r2 =>
  (takeRun isDigitChar r2).bind fun p3 =>
  (expectChar ',' p3.2).bind fun r4 =>
  (takeRun isWordChar r4).bind fun p5 =>
  (expectChar ')' p5.2).bind fun r6 =>
  some ((digitsToNat p1.1, digitsToNat p3.1, String.mk p5.1), r6)

/-- `re.findall` of the pattern on one line, fuelled recursion: try the pattern at
every position from left to right; on success continue right after the match
(non-overlapping), on failure advance one character.  `predicate_name` is embedded
literally into the pattern by the source, and the names actually passed contain no
regex metacharacters, so the name part of an attempt is a literal-prefix test. -/
def scanLineF (name : List Char) : Nat → List Char → List Cell
  | 0, _ => []
  | _ + 1, [] => []
  | fuel + 1, c :: cs =>
    if name.isPrefixOf (c :: cs) then
      match matchArgs ((c :: cs).drop name.length) with
      | some (t, rest) => t :: scanLineF name fuel rest
      | none => scanLineF name fuel cs
    else scanLineF name fuel cs

/-- All matches of the pattern on one line, left to right. -/
def scanLine (name : List Char) (cs : List Char) : List Cell := scanLineF name cs.length cs

/-- Python's `str.split('\n')` on the character list. -/
def splitOnNewline : List Char → List (List Char)
  | [] => [[]]
  | c :: cs =>
    match splitOnNewline cs with
    | [] => [[]]
    | l :: ls => if c = '\n' then [] :: l :: ls else (c :: l) :: ls

/-- `parse_cells(clingo_output, predicate_name)`: split the output into lines and
collect, line by line and left to right, every match of
`predicate_name\((\d+),(\d+),(\w+)\)`. -/
def parse_cells (clingo_output : String) (predicate_name : String) : List Cell :=
  (splitOnNewline clingo_output.data).flatMap fun line => scanLine predicate_name.data line

/-- The static `color_map` of `display_grid`: label to coloured terminal glyph. -/
def color_map : List (String × String) :=
  [("cyan", "\x1b[96m■\x1b[0m"), ("red", "\x1b[91m■\x1b[0m"),
   ("green", "\x1b[92m■\x1b[0m"), ("yellow", "\x1b[93m■\x1b[0m"),
   ("blue", "\x1b[94m■\x1b[0m"), ("magenta", "\x1b[95m■\x1b[0m"),
   ("white", "\x1b[97m■\x1b[0m"), ("black", "\x1b[90m■\x1b[0m")]

/-- `color_map.get(color, '?')`. -/
def glyphFor (color : String) : String := (List.lookup color color_map).getD "?"

/-- One Python-dict insertion with overwrite-on-duplicate-key.  Only lookups on the
dictionary are ever observed by `display_grid`, so the association list drops any
older binding of the key and appends the new one. -/
def dinsert (d : List ((Nat × Nat) × String)) (k : Nat × Nat) (v : String) :
    List ((Nat × Nat) × String) :=
  d.filter (fun e => !(e.1 == k)) ++ [(k, v)]

/-- `cell_dict = {(x, y): color for x, y, color in cells}`: position-to-label map
built by inserting the tuples in cell-set order. -/
def cell_dict (cells : List Cell) : List ((Nat × Nat) × String) :=
  cells.foldl (fun d t => dinsert d (t.1, t.2.1) t.2.2) []

/-- `f"{y:2}"`: right-align to two character positions. -/
def pad2 (n : Nat) : String := if (toString n).length ≥ 2 then toString n else " " ++ toString n

/-- What the inner column loop prints at one grid position: the glyph of the
occupying label (placeholder `?` for labels outside `color_map`) followed by a
space, or `". "` when the position is unoccupied. -/
def cellToken (d : List ((Nat × Nat) × String)) (x y : Nat) : String :=
  match List.lookup (x, y) d with
  | some color => glyphFor color ++ " "
  | none => ". "

/-- The header row of column indices `0` through `10`. -/
def headerLine : String := "  " ++ String.join ((List.range 11).map fun x => toString x ++ " ")

/-- The tokens of one grid row: one per column index `0` through `10`. -/
def rowTokens (d : List ((Nat × Nat) × String)) (y : Nat) : List String :=
  (List.range 11).map fun x => cellToken d x y

/-- One printed grid row: the row index right-aligned to width 2, a space, then
the row's tokens. -/
def rowLine (d : List ((Nat × Nat) × String)) (y : Nat) : String :=
  pad2 y ++ " " ++ String.join (rowTokens d y)

/-- The printed grid rows, one per row index `0` through `10`. -/
def gridRows (d : List ((Nat × Nat) × String)) : List String :=
  (List.range 11).map (rowLine d)

/-- `set(color for _, _, color in cells)`: the distinct labels of the cell set. -/
def used_colors (cells : List Cell) : List String := (cells.map fun t => t.2.2).dedup

/-- `sorted(used_colors)`: the distinct labels in lexicographic order. -/
def sorted_used_colors (cells : List Cell) : List String :=
  (used_colors cells).insertionSort (fun a b => a ≤ b)

/-- The legend block: blank line, `Legend:`, then one line per distinct label. -/
def legendLines (cells : List Cell) : List String :=
  if (used_colors cells).isEmpty then []
  else "" :: "Legend:" :: ((sorted_used_colors cells).map fun color =>
    "  " ++ glyphFor color ++ " = " ++ color)

/-- `display_grid(cells, grid_title)` as the list of printed lines. -/
def display_grid (cells : List Cell) (grid_title : String) : List String :=
  if cells.isEmpty then ["No cells found for " ++ grid_title ++ "."]
  else
    ["", grid_title ++ ":", headerLine] ++ gridRows (cell_dict cells) ++ legendLines cells

/-- Python's `pat in s` substring test on character lists. -/
def listContains (pat : List Char) : List Char → Bool
  | [] => pat.isEmpty
  | c :: cs => pat.isPrefixOf (c :: cs) || listContains pat cs

/-- Python's `pat in s` substring test on strings. -/
def strContains (s pat : String) : Bool := listContains pat.data s.data

/-- The Run Outcome classification of one solver invocation. -/
inductive Outcome where
  | NoSolution
  | Solved
  | Indeterminate
deriving DecidableEq

/-- The outcome branch structure of `main`'s loop body: the `UNSATISFIABLE`
marker is tested first, else the `SATISFIABLE` marker, else indeterminate. -/
def classify (clingo_output : String) : Outcome :=
  if strContains clingo_output "UNSATISFIABLE" then Outcome.NoSolution
  else if strContains clingo_output "SATISFIABLE" then Outcome.Solved
  else Outcome.Indeterminate

/-- The parse-and-render phase of `main`'s loop body: the input grid is displayed
only when its parse result is nonempty; the output grid is displayed
unconditionally. -/
def renderPhase (clingo_output : String) : List String :=
  (if (parse_cells clingo_output "in_cell").isEmpty then []
   else display_grid (parse_cells clingo_output "in_cell") "INPUT Grid")
  ++ display_grid (parse_cells clingo_output "out_cell") "OUTPUT Grid"

/-- The lines printed by one iteration of `main`'s loop after the solver ran
(the fixed banner lines are omitted): the no-solution notice and `continue` on
`UNSATISFIABLE`, a warning when neither marker occurs, then the render phase. -/
def process_example (clingo_output : String) : List String :=
  if strContains clingo_output "UNSATISFIABLE" then ["No solution found (UNSATISFIABLE)"]
  else
    (if strContains clingo_output "SATISFIABLE" then []
     else ["Warning: Could not determine if solution is satisfiable"])
    ++ renderPhase clingo_output

/-- A call event of `main`'s loop body: one `parse_cells` invocation or one
`display_grid` invocation. -/
inductive Event where
  | parseCall (predicate : String)
  | renderCall (cells : List Cell) (title : String)
deriving DecidableEq

/-- The parser and renderer invocations of one loop iteration, in program order:
nothing after the `UNSATISFIABLE` notice; otherwise parse `in_cell`, display the
input grid when nonempty, parse `out_cell`, display the output grid
unconditionally. -/
def example_trace (clingo_output : String) : List Event :=
  if strContains clingo_output "UNSATISFIABLE" then []
  else
    [Event.parseCall "in_cell"]
    ++ (if (parse_cells clingo_output "in_cell").isEmpty then []
        else [Event.renderCall (parse_cells clingo_output "in_cell") "INPUT Grid"])
    ++ [Event.parseCall "out_cell",
        Event.renderCall (parse_cells clingo_output "out_cell") "OUTPUT Grid"]

/-- The parser invocations of a trace, in order. -/
def parseCalls (evs : List Event) : List String :=
  evs.filterMap fun e =>
    match e with
    | Event.parseCall p => some p
    | Event.renderCall _ _ => none

/-- The renderer invocations of a trace, in order. -/
def renderCalls (evs : List Event) : List (List Cell × String) :=
  evs.filterMap fun e =>
    match e with
    | Event.parseCall _ => none
    | Event.renderCall cs t => some (cs, t)

/-- Modelled from the spec: the maximum x present in the cell set (§4.2
data-bounded mode); the data-bounded renderer variant of the tool is not under
`src/`, only the fixed-range variant is. -/
def maxX (cells : List Cell) : Nat := (cells.map fun t => t.1).foldl max 0

/-- Modelled from the spec: the maximum y present in the cell set (§4.2
data-bounded mode). -/
def maxY (cells : List Cell) : Nat := (cells.map fun t => t.2.1).foldl max 0

/-- Modelled from the spec: the column indices of data-bounded mode, from the
fixed lower bound 1 through the maximum x. -/
def bounded_cols (cells : List Cell) : List Nat := List.range' 1 (maxX cells)

/-- Modelled from the spec: the row indices of data-bounded mode, from the fixed
lower bound 1 through the maximum y. -/
def bounded_rows (cells : List Cell) : List Nat := List.range' 1 (maxY cells)

/-- Modelled from the spec: the data-bounded renderer (§4.2 mode 2, §9): after the
emptiness check, iterate columns and rows from 1 through the data maxima, with the
same header, row, and legend layout as the fixed-range variant. -/
def display_grid_bounded (cells : List Cell) (grid_title : String) : List String :=
  if cells.isEmpty then ["No cells found for " ++ grid_title ++ "."]
  else
    ["", grid_title ++ ":",
     "  " ++ String.join ((bounded_cols cells).map fun x => toString x ++ " ")]
    ++ (bounded_rows cells).map (fun y =>
        pad2 y ++ " " ++ String.join ((bounded_cols cells).map fun x =>
          cellToken (cell_dict cells) x y))
    ++ legendLines cells

/-- The label of the last tuple of `cells` at position `p`, if any. -/
def lastColorAt (cells : List Cell) (p : Nat × Nat) : Option String :=
  ((cells.filter fun t => (t.1, t.2.1) == p).map fun t => t.2.2).getLast?

theorem lookup_append (a : Nat × Nat) (l₁ l₂ : List ((Nat × Nat) × String)) :
    List.lookup a (l₁ ++ l₂) = (List.lookup a l₁).or (List.lookup a l₂) := by
  induction l₁ with
  | nil => simp
  | cons e es ih =>
    by_cases h : a == e.1
    · simp [List.lookup, h]
    · simp only [List.cons_append, List.lookup, h]
      exact ih

theorem lookup_filter_ne (d : List ((Nat × Nat) × String)) (p k : Nat × Nat) (h : p ≠ k) :
    List.lookup p (d.filter fun e => !(e.1 == k)) = List.lookup p d := by
  induction d with
  | nil => simp
  | cons e es ih =>
    by_cases hk : e.1 == k
    · have hek : e.1 = k := by simpa using hk
      have hpe : (p == e.1) = false := by
        simp only [beq_eq_false_iff_ne, ne_eq, hek]
        exact h
      simp [List.filter, hk, List.lookup, hpe, ih]
    · by_cases hpe : p == e.1
      · simp [List.filter, hk, List.lookup, hpe]
      · simp [List.filter, hk, List.lookup, hpe, ih]

theorem lookup_dinsert (d : List ((Nat × Nat) × String)) (k : Nat × Nat) (v : String)
    (p : Nat × Nat) :
    List.lookup p (dinsert d k v) = if p = k then some v else List.lookup p d := by
  by_cases h : p = k
  · subst h
    simp only [dinsert, lookup_append, if_pos rfl]
    have hnone : List.lookup p (d.filter fun e => !(e.1 == p)) = none := by
      induction d with
      | nil => simp
      | cons e es ih =>
        by_cases hk : e.1 == p
        · simpa [List.filter, hk] using ih
        · have hpe : (p == e.1) = false := by
            simp only [beq_eq_false_iff_ne, ne_eq]
            intro hc
            exact absurd (by simp [hc]) hk
          simpa [List.filter, hk, List.lookup, hpe] using ih
    simp [hnone, List.lookup]
  · simp only [dinsert, lookup_append, if_neg h]
    have hne : (p == k) = false := by simpa using h
    simp [lookup_filter_ne d p k h, List.lookup, hne]

theorem lookup_cell_dict (cells : List Cell) (p : Nat × Nat) :
    List.lookup p (cell_dict cells) = lastColorAt cells p := by
  induction cells using List.reverseRecOn with
  | nil => rfl
  | append_singleton cs t ih =>
    have hfold : cell_dict (cs ++ [t]) = dinsert (cell_dict cs) (t.1, t.2.1) t.2.2 := by
      simp [cell_dict, List.foldl_append]
    rw [hfold, lookup_dinsert]
    by_cases h : p = (t.1, t.2.1)
    · have hbeq : ((t.1, t.2.1) == p) = true := by simp [h.symm]
      simp [h, lastColorAt, List.filter_append, hbeq, List.getLast?_append]
    · have hbeq : ((t.1, t.2.1) == p) = false := by
        simp only [beq_eq_false_iff_ne, ne_eq]
        exact fun hc => h hc.symm
      simp [h, lastColorAt, List.filter_append, hbeq, ih]

/-- C5: the position-to-label lookup is built by inserting the tuples in cell-set
order, so at any position holding two or more tuples the displayed label is that
of the last such tuple in the sequence: the lookup, and hence the token the grid
prints at the position, is determined by the last tuple of `cells` at it. -/
theorem cell_dict_last_insertion_wins (cells : List Cell) (x y : Nat) :
    List.lookup (x, y) (cell_dict cells) = lastColorAt cells (x, y)
    ∧ cellToken (cell_dict cells) x y =
        (match lastColorAt cells (x, y) with
         | some color => glyphFor color ++ " "
         | none => ". ") := by
  refine ⟨lookup_cell_dict cells (x, y), ?_⟩
  rw [cellToken, lookup_cell_dict cells (x, y)]

/-- C3: rendering an empty cell set emits exactly the one "no cells" notice line:
no bounds are computed, no grid rows and no legend are printed. -/
theorem display_grid_empty (t : String) :
    display_grid [] t = ["No cells found for " ++ t ++ "."] := by
  simp [display_grid]

/-- C8: the run outcome is `NoSolution` exactly when the captured text contains
the literal `UNSATISFIABLE`, else `Solved` exactly when it contains the literal
`SATISFIABLE`, else `Indeterminate`; on `NoSolution` the loop body prints only
the notice and renders nothing, on `Indeterminate` it emits the warning and still
parses and renders, and on `Solved` it parses and renders with no warning. -/
theorem classify_process_example (s : String) :
    (classify s = Outcome.NoSolution ↔ strContains s "UNSATISFIABLE" = true)
    ∧ (classify s = Outcome.Solved ↔
        (strContains s "UNSATISFIABLE" = false ∧ strContains s "SATISFIABLE" = true))
    ∧ (classify s = Outcome.Indeterminate ↔
        (strContains s "UNSATISFIABLE" = false ∧ strContains s "SATISFIABLE" = false))
    ∧ (classify s = Outcome.NoSolution →
        process_example s = ["No solution found (UNSATISFIABLE)"])
    ∧ (classify s = Outcome.Indeterminate →
        process_example s =
          "Warning: Could not determine if solution is satisfiable" :: renderPhase s)
    ∧ (classify s = Outcome.Solved → process_example s = renderPhase s) := by
  cases h1 : strContains s "UNSATISFIABLE" <;> cases h2 : strContains s "SATISFIABLE" <;>
    simp [classify, process_example, h1, h2]

theorem used_colors_ne_nil (cells : List Cell) (h : cells ≠ []) : used_colors cells ≠ [] := by
  simp only [used_colors, ne_eq, List.dedup_eq_nil, List.map_eq_nil_iff]
  exact h

theorem mem_sorted_used_colors (cells : List Cell) (c : String) :
    c ∈ sorted_used_colors cells ↔ c ∈ cells.map fun t => t.2.2 := by
  rw [sorted_used_colors, (List.perm_insertionSort _ _).mem_iff, used_colors, List.mem_dedup]

theorem legendLines_of_ne_nil (cells : List Cell) (h : cells ≠ []) :
    legendLines cells =
      "" :: "Legend:" :: ((sorted_used_colors cells).map fun color =>
        "  " ++ glyphFor color ++ " = " ++ color) := by
  rw [legendLines, if_neg]
  simp only [List.isEmpty_iff]
  exact used_colors_ne_nil cells h

/-- C6: for a nonempty cell set the legend block holds exactly one line per
distinct label of the cell set (duplicates collapse), and the labels appear in
strictly increasing, hence sorted and repetition-free, lexicographic order. -/
theorem legend_sorted_distinct (cells : List Cell) (h : cells ≠ []) :
    List.Pairwise (· < ·) (sorted_used_colors cells)
    ∧ (∀ c, c ∈ sorted_used_colors cells ↔ c ∈ cells.map fun t => t.2.2)
    ∧ legendLines cells =
        "" :: "Legend:" :: ((sorted_used_colors cells).map fun color =>
          "  " ++ glyphFor color ++ " = " ++ color) := by
  refine ⟨?_, fun c => mem_sorted_used_colors cells c, legendLines_of_ne_nil cells h⟩
  have hsorted : List.Pairwise (fun a b : String => a ≤ b) (sorted_used_colors cells) :=
    List.sorted_insertionSort _ _
  have hnodup : List.Pairwise (fun a b : String => a ≠ b) (sorted_used_colors cells) :=
    ((List.perm_insertionSort _ _).nodup_iff).mpr (List.nodup_dedup _)
  exact (hsorted.and hnodup).imp fun hab => lt_of_le_of_ne hab.1 hab.2

/-- C6 witness: the legend properties at the concrete cell set
`[(0,0,red), (1,1,blue), (2,2,red)]`. -/
theorem legend_sorted_distinct_witness :
    (([(0, 0, "red"), (1, 1, "blue"), (2, 2, "red")] : List Cell) ≠ [])
    ∧ (List.Pairwise (· < ·)
        (sorted_used_colors [(0, 0, "red"), (1, 1, "blue"), (2, 2, "red")])
      ∧ (∀ c, c ∈ sorted_used_colors [(0, 0, "red"), (1, 1, "blue"), (2, 2, "red")]
            ↔ c ∈ ([(0, 0, "red"), (1, 1, "blue"), (2, 2, "red")] : List Cell).map
                fun t => t.2.2)
      ∧ legendLines [(0, 0, "red"), (1, 1, "blue"), (2, 2, "red")] =
          "" :: "Legend:" ::
            ((sorted_used_colors [(0, 0, "red"), (1, 1, "blue"), (2, 2, "red")]).map
              fun color => "  " ++ glyphFor color ++ " = " ++ color)) :=
  ⟨by decide, legend_sorted_distinct _ (by decide)⟩

/-- C7: a label outside the static `color_map` renders as the literal `?`
placeholder, both as the grid token of any position it occupies and in its
legend line, and rendering stays total. -/
theorem unknown_label_placeholder (cells : List Cell) (x y : Nat) (lbl : String)
    (hmiss : List.lookup lbl color_map = none)
    (hat : List.lookup (x, y) (cell_dict cells) = some lbl)
    (hmem : lbl ∈ cells.map fun t => t.2.2) :
    glyphFor lbl = "?"
    ∧ cellToken (cell_dict cells) x y = "?" ++ " "
    ∧ ("  " ++ "?" ++ " = " ++ lbl) ∈ legendLines cells := by
  have hg : glyphFor lbl = "?" := by
    rw [glyphFor, hmiss]
    rfl
  refine ⟨hg, ?_, ?_⟩
  · simp [cellToken, hat, hg]
  · have hne : cells ≠ [] := by
      intro hc
      rw [hc] at hmem
      simp at hmem
    rw [legendLines_of_ne_nil cells hne]
    have hmem' : lbl ∈ sorted_used_colors cells := (mem_sorted_used_colors cells lbl).mpr hmem
    have : ("  " ++ glyphFor lbl ++ " = " ++ lbl) ∈
        (sorted_used_colors cells).map fun color => "  " ++ glyphFor color ++ " = " ++ color :=
      List.mem_map_of_mem _ hmem'
    rw [hg] at this
    exact List.mem_cons_of_mem _ (List.mem_cons_of_mem _ this)

/-- C7 witness: the placeholder glyph at the concrete cell set `[(0,0,orange)]`,
whose label `orange` is outside `color_map`. -/
theorem unknown_label_placeholder_witness :
    List.lookup "orange" color_map = none
    ∧ List.lookup (0, 0) (cell_dict [(0, 0, "orange")]) = some "orange"
    ∧ "orange" ∈ ([(0, 0, "orange")] : List Cell).map (fun t => t.2.2)
    ∧ (glyphFor "orange" = "?"
      ∧ cellToken (cell_dict [(0, 0, "orange")]) 0 0 = "?" ++ " "
      ∧ ("  " ++ "?" ++ " = " ++ "orange") ∈ legendLines [(0, 0, "orange")]) :=
  ⟨by decide, by decide, by decide,
    unknown_label_placeholder [(0, 0, "orange")] 0 0 "orange" (by decide) (by decide) (by decide)⟩

theorem lastColorAt_filter_range (cells : List Cell) (x y : Nat) (hx : x < 11) (hy : y < 11) :
    lastColorAt (cells.filter fun c => c.1 < 11 && c.2.1 < 11) (x, y) =
      lastColorAt cells (x, y) := by
  rw [lastColorAt, lastColorAt, List.filter_filter]
  have hfe : ∀ t ∈ cells,
      (((t.1, t.2.1) == (x, y)) && (decide (t.1 < 11) && decide (t.2.1 < 11)))
        = ((t.1, t.2.1) == (x, y)) := by
    intro t _
    by_cases hp : (t.1, t.2.1) = (x, y)
    · have h1 : t.1 = x := congrArg Prod.fst hp
      have h2 : t.2.1 = y := congrArg Prod.snd hp
      simp [hp, h1, h2, hx, hy]
    · have hb : ((t.1, t.2.1) == (x, y)) = false := by
        simp only [beq_eq_false_iff_ne, ne_eq]
        exact hp
      simp [hb]
  rw [List.filter_congr hfe]

theorem cellToken_filter_range (cells : List Cell) (x y : Nat) (hx : x < 11) (hy : y < 11) :
    cellToken (cell_dict (cells.filter fun c => c.1 < 11 && c.2.1 < 11)) x y =
      cellToken (cell_dict cells) x y := by
  rw [cellToken, cellToken, lookup_cell_dict, lookup_cell_dict,
    lastColorAt_filter_range cells x y hx hy]

/-- C4: the fixed-range grid always has exactly 11 rows and 11 tokens per row
(`x` and `y` iterate 0 through 10), cells outside that range never change a
rendered grid row, and the nonempty-path output is the title block, the header,
the 11 rows and then the legend. -/
theorem fixed_range_grid (cells : List Cell) (t : String) (h : cells ≠ []) :
    (gridRows (cell_dict cells)).length = 11
    ∧ (∀ y, (rowTokens (cell_dict cells) y).length = 11)
    ∧ gridRows (cell_dict (cells.filter fun c => c.1 < 11 && c.2.1 < 11))
        = gridRows (cell_dict cells)
    ∧ display_grid cells t
        = ["", t ++ ":", headerLine] ++ gridRows (cell_dict cells) ++ legendLines cells := by
  refine ⟨by simp [gridRows], fun y => by simp [rowTokens], ?_, ?_⟩
  · rw [gridRows, gridRows]
    apply List.map_congr_left
    intro y hy
    have hy11 : y < 11 := List.mem_range.mp hy
    rw [rowLine, rowLine]
    congr 1
    rw [rowTokens, rowTokens]
    apply congrArg
    apply List.map_congr_left
    intro x hx
    exact cellToken_filter_range cells x y (List.mem_range.mp hx) hy11
  · rw [display_grid, if_neg]
    simp only [List.isEmpty_iff]
    exact h

/-- C4 witness: the fixed-range grid at the concrete cell set
`[(3, 2, red), (40, 2, blue)]`, whose second cell lies outside the range. -/
theorem fixed_range_grid_witness :
    (([(3, 2, "red"), (40, 2, "blue")] : List Cell) ≠ [])
    ∧ ((gridRows (cell_dict [(3, 2, "red"), (40, 2, "blue")])).length = 11
      ∧ (∀ y, (rowTokens (cell_dict [(3, 2, "red"), (40, 2, "blue")]) y).length = 11)
      ∧ gridRows (cell_dict
            (([(3, 2, "red"), (40, 2, "blue")] : List Cell).filter
              fun c => c.1 < 11 && c.2.1 < 11))
          = gridRows (cell_dict [(3, 2, "red"), (40, 2, "blue")])
      ∧ display_grid [(3, 2, "red"), (40, 2, "blue")] "INPUT Grid"
          = ["", "INPUT Grid" ++ ":", headerLine]
            ++ gridRows (cell_dict [(3, 2, "red"), (40, 2, "blue")])
            ++ legendLines [(3, 2, "red"), (40, 2, "blue")]) :=
  ⟨by decide, fixed_range_grid _ "INPUT Grid" (by decide)⟩

/-- C2: in the data-bounded rendering mode the grid's width is the maximum x of
the cell set and its height the maximum y, both iterations starting at the fixed
lower bound 1; the nonempty-path output is the title block, the header over those
columns, one row per row index and then the legend. -/
theorem data_bounded_dims (cells : List Cell) (t : String) (h : cells ≠ []) :
    (bounded_cols cells).length = maxX cells
    ∧ (bounded_rows cells).length = maxY cells
    ∧ (1 ≤ maxX cells → (bounded_cols cells).head? = some 1)
    ∧ (1 ≤ maxY cells → (bounded_rows cells).head? = some 1)
    ∧ (∀ x ∈ bounded_cols cells, 1 ≤ x ∧ x ≤ maxX cells)
    ∧ (∀ y ∈ bounded_rows cells, 1 ≤ y ∧ y ≤ maxY cells)
    ∧ display_grid_bounded cells t
        = ["", t ++ ":",
           "  " ++ String.join ((bounded_cols cells).map fun x => toString x ++ " ")]
          ++ (bounded_rows cells).map (fun y =>
              pad2 y ++ " " ++ String.join ((bounded_cols cells).map fun x =>
                cellToken (cell_dict cells) x y))
          ++ legendLines cells := by
  refine ⟨by simp [bounded_cols], by simp [bounded_rows], ?_, ?_, ?_, ?_, ?_⟩
  · intro hx
    obtain ⟨m, hm⟩ := Nat.exists_eq_add_of_le hx
    rw [bounded_cols, hm, Nat.add_comm 1 m, List.range'_succ]
    rfl
  · intro hy
    obtain ⟨m, hm⟩ := Nat.exists_eq_add_of_le hy
    rw [bounded_rows, hm, Nat.add_comm 1 m, List.range'_succ]
    rfl
  · intro x hx
    have := List.mem_range'_1.mp hx
    omega
  · intro y hy
    have := List.mem_range'_1.mp hy
    omega
  · rw [display_grid_bounded, if_neg]
    simp only [List.isEmpty_iff]
    exact h

/-- C2 witness: the data-bounded dimensions at the concrete cell set
`[(3, 2, red)]`: width 3, height 2, both starting at 1. -/
theorem data_bounded_dims_witness :
    (([(3, 2, "red")] : List Cell) ≠ [])
    ∧ ((bounded_cols [(3, 2, "red")]).length = maxX [(3, 2, "red")]
      ∧ (bounded_rows [(3, 2, "red")]).length = maxY [(3, 2, "red")]
      ∧ (1 ≤ maxX [(3, 2, "red")] → (bounded_cols [(3, 2, "red")]).head? = some 1)
      ∧ (1 ≤ maxY [(3, 2, "red")] → (bounded_rows [(3, 2, "red")]).head? = some 1)
      ∧ (∀ x ∈ bounded_cols [(3, 2, "red")], 1 ≤ x ∧ x ≤ maxX [(3, 2, "red")])
      ∧ (∀ y ∈ bounded_rows [(3, 2, "red")], 1 ≤ y ∧ y ≤ maxY [(3, 2, "red")])
      ∧ display_grid_bounded [(3, 2, "red")] "OUTPUT Grid"
          = ["", "OUTPUT Grid" ++ ":",
             "  " ++ String.join ((bounded_cols [(3, 2, "red")]).map fun x => toString x ++ " ")]
            ++ (bounded_rows [(3, 2, "red")]).map (fun y =>
                pad2 y ++ " " ++ String.join ((bounded_cols [(3, 2, "red")]).map fun x =>
                  cellToken (cell_dict [(3, 2, "red")]) x y))
            ++ legendLines [(3, 2, "red")]) :=
  ⟨by decide, data_bounded_dims _ "OUTPUT Grid" (by decide)⟩

theorem expectChar_eq_some {c : Char} {cs r : List Char} (h : expectChar c cs = some r) :
    cs = c :: r := by
  cases cs with
  | nil => exact absurd h (by simp [expectChar])
  | cons x xs =>
    rw [expectChar] at h
    by_cases hx : x = c
    · rw [if_pos hx] at h
      injection h with h
      rw [hx, h]
    · rw [if_neg hx] at h
      exact absurd h (by simp)

theorem takeRun_eq_some {p : Char → Bool} {cs : List Char} {run r : List Char}
    (h : takeRun p cs = some (run, r)) :
    run = cs.takeWhile p ∧ r = cs.dropWhile p ∧ run ≠ [] := by
  rw [takeRun] at h
  by_cases he : (cs.takeWhile p).isEmpty
  · simp [he] at h
  · simp only [he, Bool.false_eq_true, if_false, Option.some.injEq, Prod.mk.injEq] at h
    obtain ⟨ha, hb⟩ := h
    refine ⟨ha.symm, hb.symm, ?_⟩
    rw [← ha]
    simpa [List.isEmpty_iff] using he

theorem dropWhile_shorter {p : Char → Bool} {cs : List Char} (h : cs.takeWhile p ≠ []) :
    (cs.dropWhile p).length < cs.length := by
  have hlen : (cs.takeWhile p).length + (cs.dropWhile p).length = cs.length := by
    rw [← List.length_append, List.takeWhile_append_dropWhile]
  have hpos : 0 < (cs.takeWhile p).length := List.length_pos.mpr h
  omega

theorem matchArgs_length {cs : List Char} {t : Cell} {rest : List Char}
    (h : matchArgs cs = some (t, rest)) : rest.length < cs.length := by
  rw [matchArgs] at h
  simp only [Option.bind_eq_some] at h
  obtain ⟨r0, h0, h⟩ := h
  obtain ⟨p1, h1, h⟩ := h
  obtain ⟨r2, h2, h⟩ := h
  obtain ⟨p3, h3, h⟩ := h
  obtain ⟨r4, h4, h⟩ := h
  obtain ⟨p5, h5, h⟩ := h
  obtain ⟨r6, h6, h⟩ := h
  have hrest : rest = r6 := by
    injection h with h'
    exact (congrArg Prod.snd h').symm
  have e0 : cs = '(' :: r0 := expectChar_eq_some h0
  obtain ⟨e1a, e1b, e1c⟩ := takeRun_eq_some h1
  have l1 : p1.2.length < r0.length := by
    rw [e1b]
    exact dropWhile_shorter (e1a ▸ e1c)
  have e2 : p1.2 = ',' :: r2 := expectChar_eq_some h2
  obtain ⟨e3a, e3b, e3c⟩ := takeRun_eq_some h3
  have l3 : p3.2.length < r2.length := by
    rw [e3b]
    exact dropWhile_shorter (e3a ▸ e3c)
  have e4 : p3.2 = ',' :: r4 := expectChar_eq_some h4
  obtain ⟨e5a, e5b, e5c⟩ := takeRun_eq_some h5
  have l5 : p5.2.length < r4.length := by
    rw [e5b]
    exact dropWhile_shorter (e5a ▸ e5c)
  have e6 : p5.2 = ')' :: r6 := expectChar_eq_some h6
  have c0 : cs.length = r0.length + 1 := by rw [e0]; rfl
  have c2 : p1.2.length = r2.length + 1 := by rw [e2]; rfl
  have c4 : p3.2.length = r4.length + 1 := by rw [e4]; rfl
  have c6 : p5.2.length = r6.length + 1 := by rw [e6]; rfl
  rw [hrest]
  omega

theorem scanLineF_fuel (name : List Char) :
    ∀ (f1 : Nat) (f2 : Nat) (cs : List Char), cs.length ≤ f1 → cs.length ≤ f2 →
      scanLineF name f1 cs = scanLineF name f2 cs := by
  intro f1
  induction f1 with
  | zero =>
    intro f2 cs h1 _
    have : cs = [] := List.eq_nil_of_length_eq_zero (Nat.le_zero.mp h1)
    subst this
    cases f2 <;> rfl
  | succ f1 ih =>
    intro f2 cs h1 h2
    cases cs with
    | nil => cases f2 <;> rfl
    | cons c cs' =>
      have hlen : cs'.length + 1 ≤ f2 := by simpa using h2
      obtain ⟨f2', rfl⟩ : ∃ k, f2 = k + 1 := by
        cases f2 with
        | zero => omega
        | succ k => exact ⟨k, rfl⟩
      have h1' : cs'.length ≤ f1 := by simpa using h1
      have h2' : cs'.length ≤ f2' := by omega
      cases hp : name.isPrefixOf (c :: cs') with
      | false => simp only [scanLineF, hp, Bool.false_eq_true, if_false]; exact ih f2' cs' h1' h2'
      | true =>
        cases hm : matchArgs ((c :: cs').drop name.length) with
        | none => simp only [scanLineF, hp, if_true, hm]; exact ih f2' cs' h1' h2'
        | some pr =>
          obtain ⟨t, rest⟩ := pr
          have hr : rest.length < (c :: cs').length := by
            have hd := matchArgs_length hm
            have : ((c :: cs').drop name.length).length ≤ (c :: cs').length := by
              rw [List.length_drop]
              omega
            omega
          have hr1 : rest.length ≤ f1 := by
            simp only [List.length_cons] at hr
            omega
          have hr2 : rest.length ≤ f2' := by
            simp only [List.length_cons] at hr
            omega
          simp only [scanLineF, hp, if_true, hm]
          rw [ih f2' rest hr1 hr2]

theorem scanLine_nil (name : List Char) : scanLine name [] = [] := rfl

theorem scanLine_cons_not_pre (name : List Char) (c : Char) (cs : List Char)
    (h : name.isPrefixOf (c :: cs) = false) :
    scanLine name (c :: cs) = scanLine name cs := by
  rw [scanLine, scanLine, List.length_cons]
  simp only [scanLineF, h, Bool.false_eq_true, if_false]

theorem scanLine_cons_args_fail (name : List Char) (c : Char) (cs : List Char)
    (hm : matchArgs ((c :: cs).drop name.length) = none) :
    scanLine name (c :: cs) = scanLine name cs := by
  rw [scanLine, scanLine, List.length_cons]
  cases hp : name.isPrefixOf (c :: cs) with
  | false => simp only [scanLineF, hp, Bool.false_eq_true, if_false]
  | true => simp only [scanLineF, hp, if_true, hm]

theorem scanLine_cons_match (name : List Char) (c : Char) (cs : List Char) (t : Cell)
    (rest : List Char) (hp : name.isPrefixOf (c :: cs) = true)
    (hm : matchArgs ((c :: cs).drop name.length) = some (t, rest)) :
    scanLine name (c :: cs) = t :: scanLine name rest := by
  rw [scanLine, scanLine, List.length_cons]
  simp only [scanLineF, hp, if_true, hm]
  have hr : rest.length ≤ cs.length := by
    have hd := matchArgs_length hm
    have : ((c :: cs).drop name.length).length ≤ (c :: cs).length := by
      rw [List.length_drop]
      omega
    simp only [List.length_cons] at this
    omega
  rw [scanLineF_fuel name cs.length rest.length rest hr (Nat.le_refl _)]

theorem isPrefixOf_append_self (l r : List Char) : l.isPrefixOf (l ++ r) = true := by
  induction l with
  | nil => cases r <;> rfl
  | cons a as ih => simp [List.isPrefixOf, ih]

theorem scanLine_skip_inert (name : List Char) (n0 : Char) (ns : List Char)
    (hn : name = n0 :: ns) (hw : isWordChar n0 = true) :
    ∀ (sep rest : List Char), (∀ c ∈ sep, isWordChar c = false) →
      scanLine name (sep ++ rest) = scanLine name rest := by
  intro sep
  induction sep with
  | nil => intro rest _; rfl
  | cons c sep' ih =>
    intro rest hsep
    have hc : isWordChar c = false := hsep c (List.mem_cons_self c sep')
    have hne : (n0 == c) = false := by
      simp only [beq_eq_false_iff_ne, ne_eq]
      intro hcc
      rw [← hcc] at hc
      rw [hw] at hc
      exact Bool.noConfusion hc
    have hpre : name.isPrefixOf (c :: (sep' ++ rest)) = false := by
      rw [hn]
      simp [List.isPrefixOf, hne]
    rw [List.cons_append, scanLine_cons_not_pre name c (sep' ++ rest) hpre]
    exact ih rest fun d hd => hsep d (List.mem_cons_of_mem c hd)

theorem scanLine_all_inert (name : List Char) (n0 : Char) (ns : List Char)
    (hn : name = n0 :: ns) (hw : isWordChar n0 = true)
    (l : List Char) (hl : ∀ c ∈ l, isWordChar c = false) :
    scanLine name l = [] := by
  have := scanLine_skip_inert name n0 ns hn hw l [] hl
  rw [List.append_nil] at this
  rw [this, scanLine_nil]

theorem takeWhile_exact (p : Char → Bool) (l r : List Char)
    (hl : ∀ c ∈ l, p c = true) (hr : ∀ c, r.head? = some c → p c = false) :
    (l ++ r).takeWhile p = l := by
  induction l with
  | nil =>
    cases r with
    | nil => rfl
    | cons c r' => simp [List.takeWhile, hr c rfl]
  | cons a l' ih =>
    have ha : p a = true := hl a (List.mem_cons_self a l')
    simp only [List.cons_append, List.takeWhile_cons, ha, if_true]
    rw [ih fun c hc => hl c (List.mem_cons_of_mem a hc)]

theorem dropWhile_exact (p : Char → Bool) (l r : List Char)
    (hl : ∀ c ∈ l, p c = true) (hr : ∀ c, r.head? = some c → p c = false) :
    (l ++ r).dropWhile p = r := by
  induction l with
  | nil =>
    cases r with
    | nil => rfl
    | cons c r' => simp [List.dropWhile, hr c rfl]
  | cons a l' ih =>
    have ha : p a = true := hl a (List.mem_cons_self a l')
    simp only [List.cons_append, List.dropWhile_cons, ha, if_true]
    exact ih fun c hc => hl c (List.mem_cons_of_mem a hc)

theorem takeRun_exact (p : Char → Bool) (l r : List Char) (hne : l ≠ [])
    (hl : ∀ c ∈ l, p c = true) (hr : ∀ c, r.head? = some c → p c = false) :
    takeRun p (l ++ r) = some (l, r) := by
  rw [takeRun, takeWhile_exact p l r hl hr, dropWhile_exact p l r hl hr]
  have : l.isEmpty = false := by
    cases l with
    | nil => exact absurd rfl hne
    | cons a l' => rfl
  simp [this]

theorem matchArgs_exact (a b w rest : List Char)
    (ha : a ≠ []) (hda : ∀ c ∈ a, isDigitChar c = true)
    (hb : b ≠ []) (hdb : ∀ c ∈ b, isDigitChar c = true)
    (hw : w ≠ []) (hww : ∀ c ∈ w, isWordChar c = true) :
    matchArgs ('(' :: (a ++ ',' :: (b ++ ',' :: (w ++ ')' :: rest)))) =
      some ((digitsToNat a, digitsToNat b, String.mk w), rest) := by
  have e1 : takeRun isDigitChar (a ++ ',' :: (b ++ ',' :: (w ++ ')' :: rest)))
      = some (a, ',' :: (b ++ ',' :: (w ++ ')' :: rest))) := by
    apply takeRun_exact isDigitChar a _ ha hda
    intro c hc
    rw [List.head?_cons, Option.some.injEq] at hc
    rw [← hc]
    decide
  have e2 : takeRun isDigitChar (b ++ ',' :: (w ++ ')' :: rest))
      = some (b, ',' :: (w ++ ')' :: rest)) := by
    apply takeRun_exact isDigitChar b _ hb hdb
    intro c hc
    rw [List.head?_cons, Option.some.injEq] at hc
    rw [← hc]
    decide
  have e3 : takeRun isWordChar (w ++ ')' :: rest) = some (w, ')' :: rest) := by
    apply takeRun_exact isWordChar w _ hw hww
    intro c hc
    rw [List.head?_cons, Option.some.injEq] at hc
    rw [← hc]
    decide
  simp [matchArgs, expectChar, e1, e2, e3]

theorem scanLine_match_at_name (name : List Char) (hnn : name ≠ []) (a b w rest : List Char)
    (ha : a ≠ []) (hda : ∀ c ∈ a, isDigitChar c = true)
    (hb : b ≠ []) (hdb : ∀ c ∈ b, isDigitChar c = true)
    (hw : w ≠ []) (hww : ∀ c ∈ w, isWordChar c = true) :
    scanLine name (name ++ '(' :: (a ++ ',' :: (b ++ ',' :: (w ++ ')' :: rest)))) =
      (digitsToNat a, digitsToNat b, String.mk w) :: scanLine name rest := by
  obtain ⟨n0, ns, rfl⟩ := List.exists_cons_of_ne_nil hnn
  rw [List.cons_append]
  apply scanLine_cons_match
  · rw [← List.cons_append]
    exact isPrefixOf_append_self _ _
  · rw [← List.cons_append, List.drop_left]
    exact matchArgs_exact a b w rest ha hda hb hdb hw hww

/-- A well-formed relation occurrence body: two digit strings and a word token. -/
structure Occ where
  a : List Char
  b : List Char
  w : List Char
deriving DecidableEq

/-- Well-formedness of an occurrence body: nonempty digit runs for both
coordinates (leading zeros allowed) and a nonempty word token for the label. -/
def Occ.wf (o : Occ) : Prop :=
  o.a ≠ [] ∧ (∀ c ∈ o.a, isDigitChar c = true)
  ∧ o.b ≠ [] ∧ (∀ c ∈ o.b, isDigitChar c = true)
  ∧ o.w ≠ [] ∧ (∀ c ∈ o.w, isWordChar c = true)

instance (o : Occ) : Decidable o.wf :=
  inferInstanceAs (Decidable (o.a ≠ [] ∧ (∀ c ∈ o.a, isDigitChar c = true)
    ∧ o.b ≠ [] ∧ (∀ c ∈ o.b, isDigitChar c = true)
    ∧ o.w ≠ [] ∧ (∀ c ∈ o.w, isWordChar c = true)))

/-- The text `name(a,b,w)` of one occurrence. -/
def Occ.rendered (name : List Char) (o : Occ) : List Char :=
  name ++ '(' :: (o.a ++ ',' :: (o.b ++ ',' :: (o.w ++ [')'])))

/-- The cell tuple an occurrence denotes: base-10 coordinates, verbatim label. -/
def Occ.tuple (o : Occ) : Cell := (digitsToNat o.a, digitsToNat o.b, String.mk o.w)

/-- A line holding the given occurrences in order, each preceded by its separator
text, with trailing text `tail`. -/
def lineChars (name : List Char) : List (List Char × Occ) → List Char → List Char
  | [], tail => tail
  | p :: ps, tail => p.1 ++ (Occ.rendered name p.2 ++ lineChars name ps tail)

/-- The lines joined with single newline characters. -/
def joinLines : List (List Char) → List Char
  | [] => []
  | [l] => l
  | l :: l' :: ls => l ++ '\n' :: joinLines (l' :: ls)

theorem splitOnNewline_ne_nil (cs : List Char) : splitOnNewline cs ≠ [] := by
  cases cs with
  | nil => simp [splitOnNewline]
  | cons c cs' =>
    rw [splitOnNewline]
    cases splitOnNewline cs' with
    | nil => simp
    | cons l ls =>
      by_cases hc : c = '\n' <;> simp [hc]

theorem splitOnNewline_no_nl (l : List Char) (h : '\n' ∉ l) : splitOnNewline l = [l] := by
  induction l with
  | nil => rfl
  | cons c l' ih =>
    have hc : ¬ c = '\n' := fun hc => h (hc ▸ List.mem_cons_self c l')
    have ih' := ih fun hm => h (List.mem_cons_of_mem c hm)
    rw [splitOnNewline, ih']
    simp [hc]

theorem splitOnNewline_append_nl (l rest : List Char) (h : '\n' ∉ l) :
    splitOnNewline (l ++ '\n' :: rest) = l :: splitOnNewline rest := by
  induction l with
  | nil =>
    rw [List.nil_append, splitOnNewline]
    cases hr : splitOnNewline rest with
    | nil => exact absurd hr (splitOnNewline_ne_nil rest)
    | cons r rs => simp
  | cons c l' ih =>
    have hc : ¬ c = '\n' := fun hc => h (hc ▸ List.mem_cons_self c l')
    have ih' := ih fun hm => h (List.mem_cons_of_mem c hm)
    rw [List.cons_append, splitOnNewline, ih']
    simp [hc]

theorem splitOnNewline_joinLines (ls : List (List Char)) (h : ∀ l ∈ ls, '\n' ∉ l)
    (hne : ls ≠ []) : splitOnNewline (joinLines ls) = ls := by
  induction ls with
  | nil => exact absurd rfl hne
  | cons l ls' ih =>
    cases ls' with
    | nil => exact splitOnNewline_no_nl l (h l (List.mem_cons_self l []))
    | cons l2 ls2 =>
      rw [joinLines, splitOnNewline_append_nl l _ (h l (List.mem_cons_self l _))]
      rw [ih (fun m hm => h m (List.mem_cons_of_mem l hm)) (List.cons_ne_nil l2 ls2)]

theorem nl_not_word : isWordChar '\n' = false := by decide

theorem nl_not_in_rendered (name : List Char) (o : Occ)
    (hnw : ∀ c ∈ name, isWordChar c = true) (ho : o.wf) : '\n' ∉ Occ.rendered name o := by
  obtain ⟨_, hda, _, hdb, _, hww⟩ := ho
  intro hm
  rw [Occ.rendered] at hm
  simp only [List.mem_append, List.mem_cons, List.not_mem_nil, or_false] at hm
  rcases hm with hn | hm
  · exact absurd (hnw _ hn) (by decide)
  rcases hm with h1 | hm
  · exact absurd h1 (by decide)
  rcases hm with hn | hm
  · exact absurd (hda _ hn) (by decide)
  rcases hm with h2 | hm
  · exact absurd h2 (by decide)
  rcases hm with hn | hm
  · exact absurd (hdb _ hn) (by decide)
  rcases hm with h3 | hm
  · exact absurd h3 (by decide)
  rcases hm with hn | h4
  · exact absurd (hww _ hn) (by decide)
  · exact absurd h4 (by decide)

theorem rendered_append (name : List Char) (o : Occ) (rest : List Char) :
    Occ.rendered name o ++ rest =
      name ++ '(' :: (o.a ++ ',' :: (o.b ++ ',' :: (o.w ++ ')' :: rest))) := by
  simp [Occ.rendered, List.append_assoc]

theorem scanLine_lineChars (name : List Char) (hnn : name ≠ [])
    (hnw : ∀ c ∈ name, isWordChar c = true) :
    ∀ (chunks : List (List Char × Occ)) (tail : List Char),
      (∀ p ∈ chunks, (∀ c ∈ p.1, isWordChar c = false) ∧ p.2.wf) →
      (∀ c ∈ tail, isWordChar c = false) →
      scanLine name (lineChars name chunks tail) = chunks.map fun p => p.2.tuple := by
  obtain ⟨n0, ns, hn⟩ := List.exists_cons_of_ne_nil hnn
  have hw0 : isWordChar n0 = true := hnw n0 (hn ▸ List.mem_cons_self n0 ns)
  intro chunks
  induction chunks with
  | nil =>
    intro tail _ htail
    rw [lineChars, List.map_nil]
    exact scanLine_all_inert name n0 ns hn hw0 tail htail
  | cons p ps ih =>
    intro tail hch htail
    have hp := hch p (List.mem_cons_self p ps)
    obtain ⟨hwa, hda, hwb, hdb, hwc, hdc⟩ := hp.2
    rw [lineChars,
      scanLine_skip_inert name n0 ns hn hw0 p.1 _ hp.1,
      rendered_append,
      scanLine_match_at_name name hnn p.2.a p.2.b p.2.w _ hwa hda hwb hdb hwc hdc,
      ih tail (fun q hq => hch q (List.mem_cons_of_mem p hq)) htail,
      List.map_cons]
    rfl

theorem nl_not_in_lineChars (name : List Char) (hnw : ∀ c ∈ name, isWordChar c = true) :
    ∀ (chunks : List (List Char × Occ)) (tail : List Char),
      (∀ p ∈ chunks, (∀ c ∈ p.1, c ≠ '\n') ∧ p.2.wf) →
      (∀ c ∈ tail, c ≠ '\n') →
      '\n' ∉ lineChars name chunks tail := by
  intro chunks
  induction chunks with
  | nil =>
    intro tail _ htail hm
    rw [lineChars] at hm
    exact htail '\n' hm rfl
  | cons p ps ih =>
    intro tail hch htail hm
    have hp := hch p (List.mem_cons_self p ps)
    rw [lineChars] at hm
    rcases List.mem_append.mp hm with hm1 | hm2
    · exact hp.1 '\n' hm1 rfl
    rcases List.mem_append.mp hm2 with hm3 | hm4
    · exact nl_not_in_rendered name p.2 hnw hp.2 hm3
    · exact ih tail (fun q hq => hch q (List.mem_cons_of_mem p hq)) htail hm4

theorem scanLines_flatMap (name : List Char) (hnn : name ≠ [])
    (hnw : ∀ c ∈ name, isWordChar c = true) :
    ∀ (L : List (List (List Char × Occ) × List Char)),
      (∀ l ∈ L, ∀ p ∈ l.1, ∀ c ∈ p.1, isWordChar c = false) →
      (∀ l ∈ L, ∀ c ∈ l.2, isWordChar c = false) →
      (∀ l ∈ L, ∀ p ∈ l.1, p.2.wf) →
      (L.map fun l => lineChars name l.1 l.2).flatMap (scanLine name)
        = L.flatMap fun l => l.1.map fun p => p.2.tuple := by
  intro L
  induction L with
  | nil => intro _ _ _; rfl
  | cons l ls ih =>
    intro hsep htail hocc
    rw [List.map_cons, List.flatMap_cons, List.flatMap_cons]
    rw [scanLine_lineChars name hnn hnw l.1 l.2
      (fun p hp => ⟨hsep l (List.mem_cons_self l ls) p hp, hocc l (List.mem_cons_self l ls) p hp⟩)
      (htail l (List.mem_cons_self l ls))]
    rw [ih (fun m hm => hsep m (List.mem_cons_of_mem l hm))
      (fun m hm => htail m (List.mem_cons_of_mem l hm))
      (fun m hm => hocc m (List.mem_cons_of_mem l hm))]

/-- C1: completeness and order of `parse_cells` — for any relation name (a
nonempty word-character token), any arrangement of well-formed occurrences
`name(a,b,w)` over any lines, with arbitrary inert (non-word, non-newline)
separator text around them, `parse_cells` returns exactly one tuple per
occurrence, in line order then left-to-right order within a line, with both
coordinates parsed as base-10 integers (so leading zeros collapse) and the label
taken verbatim; in particular a text with no occurrence yields `[]` and the
function is total, never an error. -/
theorem parse_cells_complete (name : String)
    (lines : List (List (List Char × Occ) × List Char))
    (hnn : name.data ≠ []) (hnw : ∀ c ∈ name.data, isWordChar c = true)
    (hsep : ∀ l ∈ lines, ∀ p ∈ l.1, ∀ c ∈ p.1, isWordChar c = false ∧ c ≠ '\n')
    (htail : ∀ l ∈ lines, ∀ c ∈ l.2, isWordChar c = false ∧ c ≠ '\n')
    (hocc : ∀ l ∈ lines, ∀ p ∈ l.1, p.2.wf) :
    parse_cells (String.mk (joinLines (lines.map fun l => lineChars name.data l.1 l.2))) name
      = lines.flatMap fun l => l.1.map fun p => p.2.tuple := by
  cases lines with
  | nil => rfl
  | cons l0 ls0 =>
    rw [parse_cells]
    have hno : ∀ m ∈ (l0 :: ls0).map fun l => lineChars name.data l.1 l.2, '\n' ∉ m := by
      intro m hm
      obtain ⟨l, hl, rfl⟩ := List.mem_map.mp hm
      exact nl_not_in_lineChars name.data hnw l.1 l.2
        (fun p hp => ⟨fun c hc => (hsep l hl p hp c hc).2, hocc l hl p hp⟩)
        (fun c hc => (htail l hl c hc).2)
    have hsplit : splitOnNewline (String.mk (joinLines
        ((l0 :: ls0).map fun l => lineChars name.data l.1 l.2))).data
        = (l0 :: ls0).map fun l => lineChars name.data l.1 l.2 :=
      splitOnNewline_joinLines _ hno (by simp)
    rw [hsplit]
    exact scanLines_flatMap name.data hnn hnw (l0 :: ls0)
      (fun l hl p hp c hc => (hsep l hl p hp c hc).1)
      (fun l hl c hc => (htail l hl c hc).1)
      hocc

/-- C1 witness: the concrete text `cell(03,7,red)` (a single line, one
occurrence, leading zero in the x coordinate) parses to exactly `[(3, 7, red)]`. -/
theorem parse_cells_complete_witness :
    parse_cells (String.mk (joinLines
        ([([([], Occ.mk ['0', '3'] ['7'] ['r', 'e', 'd'])], [])].map
          fun l => lineChars "cell".data l.1 l.2))) "cell"
      = [(3, 7, "red")] :=
  (parse_cells_complete "cell" [([([], Occ.mk ['0', '3'] ['7'] ['r', 'e', 'd'])], [])]
    (by decide) (by decide) (by decide) (by decide) (by decide)).trans (by decide)

theorem matchArgs_head_not_open {c : Char} (cs : List Char) (h : ¬ c = '(') :
    matchArgs (c :: cs) = none := by
  simp [matchArgs, expectChar, h]

theorem scanLine_word_run_skip (R : List Char) (hRw : ∀ c ∈ R, isWordChar c = true)
    (args : List Char) :
    ∀ p : List Char, (∀ c ∈ p, isWordChar c = true) →
      scanLine R (p ++ (R ++ '(' :: args)) = scanLine R (R ++ '(' :: args) := by
  intro p
  induction p with
  | nil => intro _; rw [List.nil_append]
  | cons c p' ih =>
    intro hp
    have hstep : scanLine R ((c :: p') ++ (R ++ '(' :: args))
        = scanLine R (p' ++ (R ++ '(' :: args)) := by
      cases hpre : R.isPrefixOf ((c :: p') ++ (R ++ '(' :: args)) with
      | false =>
        rw [List.cons_append]
        rw [List.cons_append] at hpre
        exact scanLine_cons_not_pre R c _ hpre
      | true =>
        have hword : ∀ d ∈ (c :: p') ++ R, isWordChar d = true := by
          intro d hd
          rcases List.mem_append.mp hd with hd1 | hd2
          · exact hp d hd1
          · exact hRw d hd2
        have hlen : R.length ≤ ((c :: p') ++ R).length := by
          rw [List.length_append]
          omega
        have hdropeq : ((c :: p') ++ (R ++ '(' :: args)).drop R.length
            = (((c :: p') ++ R).drop R.length) ++ '(' :: args := by
          rw [← List.append_assoc, List.drop_append_eq_append_drop,
            Nat.sub_eq_zero_of_le hlen, List.drop_zero]
        have hdne : ((c :: p') ++ R).drop R.length ≠ [] := by
          intro hnil
          have := congrArg List.length hnil
          rw [List.length_drop, List.length_append, List.length_cons] at this
          simp at this
        obtain ⟨d, ds, hds⟩ := List.exists_cons_of_ne_nil hdne
        have hdw : isWordChar d = true := by
          apply hword
          have : d ∈ ((c :: p') ++ R).drop R.length := by
            rw [hds]
            exact List.mem_cons_self d ds
          exact List.mem_of_mem_drop this
        have hdno : ¬ d = '(' := by
          intro hdc
          rw [hdc] at hdw
          exact absurd hdw (by decide)
        have hm : matchArgs (((c :: p') ++ (R ++ '(' :: args)).drop R.length) = none := by
          rw [hdropeq, hds, List.cons_append]
          exact matchArgs_head_not_open _ hdno
        rw [List.cons_append]
        rw [List.cons_append] at hm
        exact scanLine_cons_args_fail R c _ hm
    rw [hstep]
    exact ih fun d hd => hp d (List.mem_cons_of_mem c hd)

/-- C10: the pattern has no left word boundary — the relation name is matched as
a raw substring, so an occurrence of a longer identifier ending in the relation
name and followed by a well-formed argument triple also produces a tuple: for any
nonempty word-character token `pre` placed directly before the relation name, the
text `pre ++ name ++ (a,b,w)` parses under relation name `name` to exactly the
tuple of that triple (e.g. `in_cell(0,0,red)` with relation name `cell` yields
`(0, 0, red)`). -/
theorem parse_cells_no_left_boundary (pre name : String) (a b w : List Char)
    (_hpn : pre.data ≠ []) (hpw : ∀ c ∈ pre.data, isWordChar c = true)
    (hnn : name.data ≠ []) (hnw : ∀ c ∈ name.data, isWordChar c = true)
    (ha : a ≠ []) (hda : ∀ c ∈ a, isDigitChar c = true)
    (hb : b ≠ []) (hdb : ∀ c ∈ b, isDigitChar c = true)
    (hw : w ≠ []) (hww : ∀ c ∈ w, isWordChar c = true) :
    parse_cells (String.mk (pre.data ++
        (name.data ++ '(' :: (a ++ ',' :: (b ++ ',' :: (w ++ [')'])))))) name
      = [(digitsToNat a, digitsToNat b, String.mk w)] := by
  rw [parse_cells]
  have hno : '\n' ∉ pre.data ++ (name.data ++ '(' :: (a ++ ',' :: (b ++ ',' :: (w ++ [')'])))) := by
    intro hm
    rcases List.mem_append.mp hm with h1 | h2
    · exact absurd (hpw _ h1) (by decide)
    · exact nl_not_in_rendered name.data (Occ.mk a b w) hnw
        ⟨ha, hda, hb, hdb, hw, hww⟩ (by rw [Occ.rendered]; exact h2)
  rw [show (String.mk (pre.data ++
      (name.data ++ '(' :: (a ++ ',' :: (b ++ ',' :: (w ++ [')'])))))).data
      = pre.data ++ (name.data ++ '(' :: (a ++ ',' :: (b ++ ',' :: (w ++ [')'])))) from rfl]
  rw [splitOnNewline_no_nl _ hno]
  rw [List.flatMap_cons, List.flatMap_nil, List.append_nil]
  have hw2 : w ++ [')'] = w ++ ')' :: ([] : List Char) := rfl
  rw [hw2, scanLine_word_run_skip name.data hnw _ pre.data hpw,
    scanLine_match_at_name name.data hnn a b w [] ha hda hb hdb hw hww,
    scanLine_nil]

/-- C10 witness: the concrete text `in_cell(0,0,red)` parsed with relation name
`cell` yields the tuple `(0, 0, red)`. -/
theorem parse_cells_no_left_boundary_witness :
    parse_cells (String.mk ("in_".data ++
        ("cell".data ++ '(' :: (['0'] ++ ',' :: (['0'] ++ ',' ::
          (['r', 'e', 'd'] ++ [')'])))))) "cell"
      = [(0, 0, "red")] :=
  (parse_cells_no_left_boundary "in_" "cell" ['0'] ['0'] ['r', 'e', 'd']
    (by decide) (by decide) (by decide) (by decide) (by decide) (by decide)
    (by decide) (by decide) (by decide) (by decide)).trans (by decide)

/-- The invocation pattern claim C9 asserts of one non-`NoSolution` iteration:
the parser invoked exactly twice (input relation then output relation) and the
renderer invoked once per non-absent (nonempty) parse result, input grid first,
output grid second. -/
def rendersOncePerNonemptyResult (s : String) : Prop :=
  parseCalls (example_trace s) = ["in_cell", "out_cell"]
  ∧ renderCalls (example_trace s)
      = (if (parse_cells s "in_cell").isEmpty then []
         else [(parse_cells s "in_cell", "INPUT Grid")])
        ++ (if (parse_cells s "out_cell").isEmpty then []
            else [(parse_cells s "out_cell", "OUTPUT Grid")])

instance (s : String) : Decidable (rendersOncePerNonemptyResult s) :=
  inferInstanceAs (Decidable (_ ∧ _))

/-- C9 counterexample: on the captured text `SATISFIABLE\nin_cell(1,1,red)` the
outcome is not `NoSolution` and the output relation parses to the empty result,
yet the loop body still invokes the renderer for it (the source calls
`display_grid(output_cells, ...)` unconditionally), so the renderer is not
invoked once per nonempty parse result. -/
theorem renderer_unconditional_output_cex :
    classify "SATISFIABLE\nin_cell(1,1,red)" ≠ Outcome.NoSolution
    ∧ ¬ rendersOncePerNonemptyResult "SATISFIABLE\nin_cell(1,1,red)" := by
  decide

/-- C9 amended: for every captured text whose outcome is not `NoSolution`, the
loop body invokes the parser exactly twice — `in_cell` first, `out_cell` second —
and invokes the renderer for the input result only when that result is nonempty
but for the output result unconditionally (an empty output result is rendered as
the "no cells" notice), input grid first, output grid second. -/
theorem parser_twice_renderer_order (s : String) (h : classify s ≠ Outcome.NoSolution) :
    parseCalls (example_trace s) = ["in_cell", "out_cell"]
    ∧ renderCalls (example_trace s)
        = (if (parse_cells s "in_cell").isEmpty then []
           else [(parse_cells s "in_cell", "INPUT Grid")])
          ++ [(parse_cells s "out_cell", "OUTPUT Grid")] := by
  have hU : strContains s "UNSATISFIABLE" = false := by
    cases hU : strContains s "UNSATISFIABLE"
    · rfl
    · exact absurd (by rw [classify, if_pos hU]) h
  by_cases hin : (parse_cells s "in_cell").isEmpty
  · simp [example_trace, hU, hin, parseCalls, renderCalls]
  · simp [example_trace, hU, hin, parseCalls, renderCalls]

/-- C9 witness: the amended invocation pattern at the concrete captured text
`SATISFIABLE`, where both parse results are empty. -/
theorem parser_twice_renderer_order_witness :
    parseCalls (example_trace "SATISFIABLE") = ["in_cell", "out_cell"]
    ∧ renderCalls (example_trace "SATISFIABLE")
        = (if (parse_cells "SATISFIABLE" "in_cell").isEmpty then []
           else [(parse_cells "SATISFIABLE" "in_cell", "INPUT Grid")])
          ++ [(parse_cells "SATISFIABLE" "out_cell", "OUTPUT Grid")] :=
  parser_twice_renderer_order "SATISFIABLE" (by decide)

end TaskRunner
